import Mathlib

/-!
# Verification of the Threaded File System engine (`fileSystem.py`)

Shallow embedding of the storage-and-namespace engine of the repository:
the best-fit free-space allocator (`FileSystem._allocate_space`,
`FileSystem._release_space`), the metadata model (files, directories,
free list, used size), and the file-handle operations
(`FileObject.write_to_file`, `write_to_file_at`, `move_within_file`,
`truncate_file`, `read_from_file`) together with the volume operations
(`create`, `delete`, `open`, `close`, `chdir`, `move`).

Modelling conventions:
* Python integers that are in fact always nonnegative at the modelled
  call sites (offsets, lengths, block bounds) are `Nat`; `used_size`,
  which can become negative in this code, is `Int`; user-supplied
  arguments that the code checks for negativity are `Int`.
* Strings written to files are modelled at the byte level
  (`List Nat`), i.e. a text argument stands for its UTF-8 encoding;
  `len(text.encode('utf-8'))` is the list length and `str.rstrip('\0')`
  is removal of trailing zero bytes.
* The backing data file (byte arena) is a total function `Nat → Nat`,
  zero-initialised as in `_initialize`.
* `_save_metadata` only persists a snapshot and never changes the
  in-memory metadata, so it is the identity here and is omitted;
  creation/modification timestamps are likewise omitted since no
  modelled behaviour depends on them.
* Python `list.sort()` on `(start, size)` pairs produces the unique
  permutation sorted by lexicographic order, so it is modelled by
  `List.insertionSort` with that order.
-/

namespace TFS

/-- A free block `(start, length)`: an unallocated byte range of the
arena, as stored in `fs_metadata['free_space']`. -/
abbrev Block := Nat × Nat

/-- Sum of the lengths of the blocks of a free list. -/
def sumLens (l : List Block) : Nat := (l.map Prod.snd).sum

/-- The best-fit scan of `FileSystem._allocate_space` (lines 271-278):
walk the free list keeping the first block whose length is at least
`size` and strictly smaller than the best length found so far.  The
accumulator is `none` for `best_fit_index == -1` and otherwise holds
`(index, start, length)` of the current best block. -/
def bestFitLoop (size : Nat) : List Block → Nat → Option (Nat × Nat × Nat) → Option (Nat × Nat × Nat)
  | [], _, acc => acc
  | (st, fs) :: rest, i, acc =>
    match acc with
    | none => bestFitLoop size rest (i + 1) (if size ≤ fs then some (i, st, fs) else none)
    | some (bi, bst, bfs) =>
      bestFitLoop size rest (i + 1)
        (if size ≤ fs ∧ fs < bfs then some (i, st, fs) else some (bi, bst, bfs))

/-- The free-list part of `FileSystem._allocate_space`: find the best
fit; if its length equals `size` remove it (`pop`), otherwise shrink it
from the front.  Returns the chosen start offset and the new free list,
or `none` when the allocation raises (empty free list or no block large
enough, both `IOError`s in the code). -/
def allocFree (l : List Block) (size : Nat) : Option (Nat × List Block) :=
  match bestFitLoop size l 0 none with
  | none => none
  | some (i, st, fs) =>
    if fs = size then some (st, l.eraseIdx i)
    else some (st, l.set i (st + size, fs - size))

/-- Lexicographic order on `(start, size)` pairs: the order used by
Python `list.sort()` on the free list in `_release_space`. -/
def lexLe (a b : Block) : Prop := a.1 < b.1 ∨ (a.1 = b.1 ∧ a.2 ≤ b.2)

instance : DecidableRel lexLe := fun a b =>
  inferInstanceAs (Decidable (a.1 < b.1 ∨ (a.1 = b.1 ∧ a.2 ≤ b.2)))

instance : IsTotal Block lexLe := ⟨fun a b => by unfold lexLe; omega⟩

instance : IsTrans Block lexLe := ⟨fun a b c h₁ h₂ => by unfold lexLe at *; omega⟩

/-- Python `self.fs_metadata['free_space'].sort()` (line 307). -/
def sortBlocks (l : List Block) : List Block := l.insertionSort lexLe

/-- The merge loop of `_release_space` (lines 310-320) with the block at
the current index made explicit: while the current block ends where the
next begins, absorb the next block; otherwise emit the current block and
continue from the next. -/
def mergeFrom (cur : Block) : List Block → List Block
  | [] => [cur]
  | c :: rest =>
    if cur.1 + cur.2 = c.1 then mergeFrom (cur.1, cur.2 + c.2) rest
    else cur :: mergeFrom c rest

/-- The full merge pass of `_release_space`, starting at index 0. -/
def mergeAdjacent : List Block → List Block
  | [] => []
  | b :: rest => mergeFrom b rest

/-- The free-list part of `FileSystem._release_space`: a no-op for
`size <= 0` (here `size = 0` since lengths are `Nat`), otherwise append
`(start, size)`, sort by start, and merge adjacent blocks. -/
def releaseFree (l : List Block) (start size : Nat) : List Block :=
  if size = 0 then l else mergeAdjacent (sortBlocks (l ++ [(start, size)]))

/-- A call to the allocator: `_allocate_space(size)` or
`_release_space(start, size)`. -/
inductive AllocOp where
  | alloc (size : Nat)
  | release (start size : Nat)
  deriving Repr, DecidableEq

/-- Effect of one allocator call on the free list (a raising
`_allocate_space` leaves the free list unchanged). -/
def allocOpStep (l : List Block) : AllocOp → List Block
  | .alloc size =>
    match allocFree l size with
    | none => l
    | some (_, l2) => l2
  | .release st sz => releaseFree l st sz

/-- Free list after a sequence of allocator calls. -/
def runAllocOps (l : List Block) : List AllocOp → List Block
  | [] => l
  | op :: rest => runAllocOps (allocOpStep l op) rest

example : allocFree [(0, 100)] 0 = some (0, [(0, 100)]) := by decide
example : allocFree [(10, 5), (0, 5)] 5 = some (10, [(0, 5)]) := by decide
example : releaseFree [(0, 100)] 0 5 = [(0, 5), (0, 100)] := by decide
example : releaseFree [(0, 4), (10, 90)] 4 6 = [(0, 100)] := by decide
example : runAllocOps [(0, 100)] [.alloc 30, .release 0 30] = [(0, 100)] := by decide

/-- Well-formedness of the free list: blocks are listed so that each
block ends strictly before the next one begins (hence sorted, disjoint
and non-adjacent), and every block has positive length. -/
def FreeInv (l : List Block) : Prop :=
  l.Pairwise (fun a b : Block => a.1 + a.2 < b.1) ∧ ∀ p ∈ l, 0 < p.2

/-- Two blocks cover disjoint byte ranges. -/
def BlocksDisj (a b : Block) : Prop := a.1 + a.2 ≤ b.1 ∨ b.1 + b.2 ≤ a.1

theorem mergeFrom_spec (rest : List Block) : ∀ cur : Block,
    List.Pairwise (fun a b : Block => a.1 + a.2 ≤ b.1) (cur :: rest) →
    0 < cur.2 → (∀ p ∈ rest, 0 < p.2) →
    List.Pairwise (fun a b : Block => a.1 + a.2 < b.1) (mergeFrom cur rest) ∧
      (∀ p ∈ mergeFrom cur rest, 0 < p.2) ∧ ∀ p ∈ mergeFrom cur rest, cur.1 ≤ p.1 := by
  induction rest with
  | nil =>
    intro cur _ hc _
    refine ⟨by simp [mergeFrom], ?_, by simp [mergeFrom]⟩
    simpa [mergeFrom] using hc
  | cons c rs ih =>
    intro cur hchain hc hpos
    rw [List.pairwise_cons] at hchain
    obtain ⟨hcur, hchain2⟩ := hchain
    have hcurc : cur.1 + cur.2 ≤ c.1 := hcur c (by simp)
    by_cases hm : cur.1 + cur.2 = c.1
    · have hres := ih (cur.1, cur.2 + c.2) ?_ ?_ ?_
      · simpa [mergeFrom, hm] using hres
      · rw [List.pairwise_cons]
        rw [List.pairwise_cons] at hchain2
        exact ⟨fun x hx => by have := hchain2.1 x hx; simp; omega, hchain2.2⟩
      · have := hpos c (by simp); simp; omega
      · exact fun p hp => hpos p (by simp [hp])
    · have hlt : cur.1 + cur.2 < c.1 := lt_of_le_of_ne hcurc hm
      have hres := ih c hchain2 (hpos c (by simp)) (fun p hp => hpos p (by simp [hp]))
      obtain ⟨h1, h2, h3⟩ := hres
      rw [mergeFrom, if_neg hm]
      refine ⟨?_, ?_, ?_⟩
      · rw [List.pairwise_cons]
        exact ⟨fun x hx => lt_of_lt_of_le hlt (h3 x hx), h1⟩
      · intro p hp
        rcases List.mem_cons.mp hp with h | h
        · subst h; exact hc
        · exact h2 p h
      · intro p hp
        rcases List.mem_cons.mp hp with h | h
        · subst h; omega
        · have := h3 p h; omega

theorem mergeAdjacent_freeInv (l : List Block)
    (hchain : l.Pairwise (fun a b : Block => a.1 + a.2 ≤ b.1))
    (hpos : ∀ p ∈ l, 0 < p.2) : FreeInv (mergeAdjacent l) := by
  cases l with
  | nil => exact ⟨List.Pairwise.nil, by simp [mergeAdjacent]⟩
  | cons b rest =>
    have h := mergeFrom_spec rest b hchain (hpos b (by simp)) (fun p hp => hpos p (by simp [hp]))
    exact ⟨h.1, h.2.1⟩

theorem sorted_disj_chain (l : List Block)
    (hs : l.Pairwise lexLe) (hd : l.Pairwise BlocksDisj) (hp : ∀ p ∈ l, 0 < p.2) :
    l.Pairwise (fun a b : Block => a.1 + a.2 ≤ b.1) := by
  refine (hs.and hd).imp_of_mem ?_
  intro a b ha hb hab
  have hpa := hp a ha
  have hpb := hp b hb
  obtain ⟨hle, hdj⟩ := hab
  unfold lexLe at hle
  unfold BlocksDisj at hdj
  omega

theorem releaseFree_freeInv (l : List Block) (start size : Nat) (hinv : FreeInv l)
    (hdisj : ∀ p ∈ l, start + size ≤ p.1 ∨ p.1 + p.2 ≤ start) :
    FreeInv (releaseFree l start size) := by
  unfold releaseFree
  by_cases hz : size = 0
  · simpa [hz] using hinv
  · rw [if_neg hz]
    have hperm : List.Perm (sortBlocks (l ++ [(start, size)])) (l ++ [(start, size)]) :=
      List.perm_insertionSort lexLe _
    have hsorted : (sortBlocks (l ++ [(start, size)])).Pairwise lexLe :=
      List.sorted_insertionSort lexLe _
    have hd2 : (l ++ [(start, size)]).Pairwise BlocksDisj := by
      rw [List.pairwise_append]
      refine ⟨hinv.1.imp (fun h => Or.inl (le_of_lt h)), List.pairwise_singleton _ _, ?_⟩
      intro a ha b hb
      rw [List.mem_singleton] at hb
      subst hb
      exact Or.symm (hdisj a ha)
    have hp2 : ∀ p ∈ l ++ [(start, size)], 0 < p.2 := by
      intro p hp
      rcases List.mem_append.mp hp with h | h
      · exact hinv.2 p h
      · rw [List.mem_singleton] at h; subst h; omega
    have hds : (sortBlocks (l ++ [(start, size)])).Pairwise BlocksDisj :=
      (List.Perm.pairwise_iff (fun h => Or.symm h) hperm).mpr hd2
    have hps : ∀ p ∈ sortBlocks (l ++ [(start, size)]), 0 < p.2 :=
      fun p hp => hp2 p (hperm.mem_iff.mp hp)
    exact mergeAdjacent_freeInv _ (sorted_disj_chain _ hsorted hds hps) hps

theorem bestFitLoop_some_acc (size : Nat) : ∀ (l : List Block) (i : Nat) (b : Nat × Nat × Nat),
    (bestFitLoop size l i (some b)).isSome = true := by
  intro l
  induction l with
  | nil => intro i b; simp [bestFitLoop]
  | cons c rest ih =>
    intro i b
    obtain ⟨bi, bst, bfs⟩ := b
    obtain ⟨st, fs⟩ := c
    rw [bestFitLoop]
    split <;> apply ih

theorem bestFitLoop_none (size : Nat) : ∀ (l : List Block) (i : Nat),
    bestFitLoop size l i none = none → ∀ p ∈ l, p.2 < size := by
  intro l
  induction l with
  | nil => simp
  | cons c rest ih =>
    intro i h p hp
    obtain ⟨st, fs⟩ := c
    rw [bestFitLoop] at h
    by_cases hfit : size ≤ fs
    · rw [if_pos hfit] at h
      have := bestFitLoop_some_acc size rest (i + 1) (i, st, fs)
      rw [h] at this
      simp at this
    · rw [if_neg hfit] at h
      rcases List.mem_cons.mp hp with he | he
      · subst he; omega
      · exact ih (i + 1) h p he

/-- Full characterisation of the best-fit scan: a `some` result is
either the untouched accumulator (and then no block of the scanned list
strictly improves on it), or a block of the scanned list that is a
lower bound on the lengths of all adequate blocks, is strictly better
than every adequate block before it, and strictly improves on the
incoming accumulator. -/
theorem bestFitLoop_spec (size : Nat) : ∀ (l : List Block) (i0 : Nat)
    (acc : Option (Nat × Nat × Nat)) (i st fs : Nat),
    bestFitLoop size l i0 acc = some (i, st, fs) →
    (acc = some (i, st, fs) ∧ ∀ p ∈ l, size ≤ p.2 → fs ≤ p.2) ∨
    (i0 ≤ i ∧ l[i - i0]? = some (st, fs) ∧ size ≤ fs ∧
      (∀ p ∈ l, size ≤ p.2 → fs ≤ p.2) ∧
      (∀ j p, l[j]? = some p → i0 + j < i → size ≤ p.2 → fs < p.2) ∧
      (∀ bi bst bfs, acc = some (bi, bst, bfs) → fs < bfs)) := by
  intro l
  induction l with
  | nil =>
    intro i0 acc i st fs h
    rw [bestFitLoop] at h
    exact Or.inl ⟨h, by simp⟩
  | cons c rest ih =>
    intro i0 acc i st fs h
    obtain ⟨st1, fs1⟩ := c
    match hacc : acc with
    | none =>
      rw [bestFitLoop] at h
      by_cases hfit : size ≤ fs1
      · rw [if_pos hfit] at h
        rcases ih (i0 + 1) (some (i0, st1, fs1)) i st fs h with ⟨heq, hmin⟩ | hr
        · -- the head itself is the answer
          injection heq with heq
          injection heq with h1 h2
          injection h2 with h2 h3
          subst h1; subst h2; subst h3
          refine Or.inr ⟨le_refl _, by simp, hfit, ?_, ?_, by simp⟩
          · intro p hp hps
            rcases List.mem_cons.mp hp with he | he
            · subst he; exact le_refl _
            · exact hmin p he hps
          · intro j p hj hji
            omega
        · obtain ⟨hi, hget, hsz, hmin, hfirst, haccs⟩ := hr
          have hheadlt : fs < fs1 := haccs i0 st1 fs1 rfl
          refine Or.inr ⟨by omega, ?_, hsz, ?_, ?_, by simp⟩
          · have : i - i0 = (i - (i0 + 1)) + 1 := by omega
            rw [this, List.getElem?_cons_succ]
            exact hget
          · intro p hp hps
            rcases List.mem_cons.mp hp with he | he
            · subst he; exact le_of_lt hheadlt
            · exact hmin p he hps
          · intro j p hj hji hps
            match j with
            | 0 =>
              rw [List.getElem?_cons_zero] at hj
              injection hj with hj
              subst hj
              exact hheadlt
            | j + 1 =>
              rw [List.getElem?_cons_succ] at hj
              exact hfirst j p hj (by omega) hps
      · rw [if_neg hfit] at h
        rcases ih (i0 + 1) none i st fs h with ⟨heq, _⟩ | hr
        · exact absurd heq (by simp)
        · obtain ⟨hi, hget, hsz, hmin, hfirst, _⟩ := hr
          refine Or.inr ⟨by omega, ?_, hsz, ?_, ?_, by simp⟩
          · have : i - i0 = (i - (i0 + 1)) + 1 := by omega
            rw [this, List.getElem?_cons_succ]
            exact hget
          · intro p hp hps
            rcases List.mem_cons.mp hp with he | he
            · subst he; omega
            · exact hmin p he hps
          · intro j p hj hji hps
            match j with
            | 0 =>
              rw [List.getElem?_cons_zero] at hj
              injection hj with hj
              subst hj
              omega
            | j + 1 =>
              rw [List.getElem?_cons_succ] at hj
              exact hfirst j p hj (by omega) hps
    | some b =>
      obtain ⟨bi, bst, bfs⟩ := b
      rw [bestFitLoop] at h
      by_cases hrepl : size ≤ fs1 ∧ fs1 < bfs
      · rw [if_pos hrepl] at h
        rcases ih (i0 + 1) (some (i0, st1, fs1)) i st fs h with ⟨heq, hmin⟩ | hr
        · injection heq with heq
          injection heq with h1 h2
          injection h2 with h2 h3
          subst h1; subst h2; subst h3
          refine Or.inr ⟨le_refl _, by simp, hrepl.1, ?_, ?_, ?_⟩
          · intro p hp hps
            rcases List.mem_cons.mp hp with he | he
            · subst he; exact le_refl _
            · exact hmin p he hps
          · intro j p hj hji
            omega
          · intro bi2 bst2 bfs2 he
            injection he with he
            injection he with h1 h2
            injection h2 with h2 h3
            subst h3
            exact hrepl.2
        · obtain ⟨hi, hget, hsz, hmin, hfirst, haccs⟩ := hr
          have hheadlt : fs < fs1 := haccs i0 st1 fs1 rfl
          refine Or.inr ⟨by omega, ?_, hsz, ?_, ?_, ?_⟩
          · have : i - i0 = (i - (i0 + 1)) + 1 := by omega
            rw [this, List.getElem?_cons_succ]
            exact hget
          · intro p hp hps
            rcases List.mem_cons.mp hp with he | he
            · subst he; exact le_of_lt hheadlt
            · exact hmin p he hps
          · intro j p hj hji hps
            match j with
            | 0 =>
              rw [List.getElem?_cons_zero] at hj
              injection hj with hj
              subst hj
              exact hheadlt
            | j + 1 =>
              rw [List.getElem?_cons_succ] at hj
              exact hfirst j p hj (by omega) hps
          · intro bi2 bst2 bfs2 he
            injection he with he
            injection he with h1 h2
            injection h2 with h2 h3
            subst h3
            have := hrepl.2
            omega
      · rw [if_neg hrepl] at h
        rcases ih (i0 + 1) (some (bi, bst, bfs)) i st fs h with ⟨heq, hmin⟩ | hr
        · -- kept accumulator survives: propagate the left disjunct
          refine Or.inl ⟨heq, ?_⟩
          injection heq with heq
          injection heq with h1 h2
          injection h2 with h2 h3
          subst h1; subst h2; subst h3
          intro p hp hps
          rcases List.mem_cons.mp hp with he | he
          · subst he
            simp only at hps
            omega
          · exact hmin p he hps
        · obtain ⟨hi, hget, hsz, hmin, hfirst, haccs⟩ := hr
          have hbfs : fs < bfs := haccs bi bst bfs rfl
          refine Or.inr ⟨by omega, ?_, hsz, ?_, ?_, ?_⟩
          · have : i - i0 = (i - (i0 + 1)) + 1 := by omega
            rw [this, List.getElem?_cons_succ]
            exact hget
          · intro p hp hps
            rcases List.mem_cons.mp hp with he | he
            · subst he
              simp only at hps
              omega
            · exact hmin p he hps
          · intro j p hj hji hps
            match j with
            | 0 =>
              rw [List.getElem?_cons_zero] at hj
              injection hj with hj
              subst hj
              simp only at hps
              omega
            | j + 1 =>
              rw [List.getElem?_cons_succ] at hj
              exact hfirst j p hj (by omega) hps
          · intro bi2 bst2 bfs2 he
            injection he with he
            injection he with h1 h2
            injection h2 with h2 h3
            subst h3
            exact hbfs

/-- What a successful `_allocate_space` scan guarantees: the returned
start belongs to a block of minimal adequate length, strictly better
than every adequate block at a smaller index, and the free list is
updated by removing or front-shrinking that block. -/
theorem allocFree_spec (l : List Block) (size st : Nat) (l2 : List Block)
    (h : allocFree l size = some (st, l2)) :
    ∃ i fs, l[i]? = some (st, fs) ∧ size ≤ fs ∧
      (∀ p ∈ l, size ≤ p.2 → fs ≤ p.2) ∧
      (∀ j p, l[j]? = some p → j < i → size ≤ p.2 → fs < p.2) ∧
      ((fs = size ∧ l2 = l.eraseIdx i) ∨ (fs ≠ size ∧ l2 = l.set i (st + size, fs - size))) := by
  unfold allocFree at h
  cases hbf : bestFitLoop size l 0 none with
  | none => rw [hbf] at h; exact absurd h (by simp)
  | some b =>
    obtain ⟨i, st2, fs⟩ := b
    rw [hbf] at h
    dsimp only at h
    rcases bestFitLoop_spec size l 0 none i st2 fs hbf with ⟨heq, _⟩ |
      ⟨_, hget, hsz, hmin, hfirst, _⟩
    · exact absurd heq (by simp)
    · rw [Nat.sub_zero] at hget
      by_cases hfs : fs = size
      · rw [if_pos hfs] at h
        injection h with h
        injection h with h1 h2
        subst h1; subst h2
        exact ⟨i, fs, hget, hsz, hmin,
          fun j p hj hji => hfirst j p hj (by omega), Or.inl ⟨hfs, rfl⟩⟩
      · rw [if_neg hfs] at h
        injection h with h
        injection h with h1 h2
        subst h1; subst h2
        exact ⟨i, fs, hget, hsz, hmin,
          fun j p hj hji => hfirst j p hj (by omega), Or.inr ⟨hfs, rfl⟩⟩

/-- The scan of `_allocate_space` raises exactly when no free block is large
enough (which subsumes the empty-free-list check). -/
theorem allocFree_none_iff (l : List Block) (size : Nat) :
    allocFree l size = none ↔ ∀ p ∈ l, p.2 < size := by
  constructor
  · intro h p hp
    unfold allocFree at h
    cases hbf : bestFitLoop size l 0 none with
    | none => exact bestFitLoop_none size l 0 hbf p hp
    | some b =>
      rw [hbf] at h
      obtain ⟨i, st, fs⟩ := b
      by_cases hfs : fs = size <;> simp [hfs] at h
  · intro hall
    cases hres : allocFree l size with
    | none => rfl
    | some pr =>
      obtain ⟨st, l2⟩ := pr
      obtain ⟨i, fs, hget, hsz, _⟩ := allocFree_spec l size st l2 hres
      have hmem : (st, fs) ∈ l := List.getElem?_mem hget
      have := hall (st, fs) hmem
      simp at this
      omega

theorem pairwise_lt_set_shrink : ∀ (l : List Block) (i : Nat) {st fs size : Nat},
    l.Pairwise (fun a b : Block => a.1 + a.2 < b.1) →
    l[i]? = some (st, fs) → size ≤ fs →
    (l.set i (st + size, fs - size)).Pairwise (fun a b : Block => a.1 + a.2 < b.1) := by
  intro l
  induction l with
  | nil => intro i st fs size _ hget _; simp at hget
  | cons a rest ih =>
    intro i st fs size hp hget hsz
    match i with
    | 0 =>
      rw [List.getElem?_cons_zero] at hget
      injection hget with hget
      subst hget
      rw [List.set_cons_zero]
      rw [List.pairwise_cons] at hp ⊢
      refine ⟨fun x hx => ?_, hp.2⟩
      have := hp.1 x hx
      simp only at this ⊢
      omega
    | i + 1 =>
      rw [List.getElem?_cons_succ] at hget
      rw [List.set_cons_succ]
      rw [List.pairwise_cons] at hp ⊢
      refine ⟨fun x hx => ?_, ih i hp.2 hget hsz⟩
      rcases List.mem_or_eq_of_mem_set hx with h | h
      · exact hp.1 x h
      · subst h
        have hmem : (st, fs) ∈ rest := List.getElem?_mem hget
        have := hp.1 _ hmem
        simp only at this ⊢
        omega

/-- A successful allocation keeps the free list well formed. -/
theorem allocFree_freeInv (l : List Block) (size st : Nat) (l2 : List Block)
    (hinv : FreeInv l) (h : allocFree l size = some (st, l2)) : FreeInv l2 := by
  obtain ⟨i, fs, hget, hsz, _, _, hcase⟩ := allocFree_spec l size st l2 h
  rcases hcase with ⟨_, hl2⟩ | ⟨hfs, hl2⟩
  · subst hl2
    exact ⟨List.Pairwise.sublist (List.eraseIdx_sublist l i) hinv.1,
      fun p hp => hinv.2 p (List.eraseIdx_subset l i hp)⟩
  · subst hl2
    refine ⟨pairwise_lt_set_shrink l i hinv.1 hget hsz, ?_⟩
    intro p hp
    rcases List.mem_or_eq_of_mem_set hp with hmem | he
    · exact hinv.2 p hmem
    · subst he
      simp only
      omega

/-- Allocator histories starting from the initial single full-capacity
free block of `_initialize`, restricted so that every `release` call
returns a region disjoint from the whole current free list — which is
how the engine calls it, releasing previously allocated segments. -/
inductive SafeReach : List Block → Prop where
  | init (cap : Nat) (hcap : 0 < cap) : SafeReach [(0, cap)]
  | alloc (l : List Block) (size : Nat) (h : SafeReach l) :
      SafeReach (allocOpStep l (.alloc size))
  | release (l : List Block) (start size : Nat) (h : SafeReach l)
      (hdisj : ∀ p ∈ l, start + size ≤ p.1 ∨ p.1 + p.2 ≤ start) :
      SafeReach (releaseFree l start size)

theorem safeReach_freeInv (l : List Block) (h : SafeReach l) : FreeInv l := by
  induction h with
  | init cap hcap =>
    refine ⟨List.pairwise_singleton _ _, ?_⟩
    intro p hp
    rw [List.mem_singleton] at hp
    subst hp
    exact hcap
  | alloc l size h ih =>
    simp only [allocOpStep]
    split
    · exact ih
    · next st l2 heq => exact allocFree_freeInv l size st l2 ih heq
  | release l start size h hdisj ih => exact releaseFree_freeInv l start size ih hdisj

/-- C3 counterexample: starting from the initial full-capacity block of
a 100-byte volume, the single call `_release_space(0, 5)` — allowed by
the claim, which quantifies over every sequence of allocate and release
calls — leaves the free list `[(0, 5), (0, 100)]`, whose two blocks
overlap, so the free list is not pairwise non-overlapping. -/
theorem c3_release_overlap_counterexample :
    runAllocOps [(0, 100)] [.release 0 5] = [(0, 5), (0, 100)] ∧
    ¬ (runAllocOps [(0, 100)] [.release 0 5]).Pairwise BlocksDisj := by
  have he : runAllocOps [(0, 100)] [.release 0 5] = [(0, 5), (0, 100)] := by decide
  refine ⟨he, ?_⟩
  rw [he]
  intro hpw
  rw [List.pairwise_cons] at hpw
  have hd := hpw.1 (0, 100) (by simp)
  simp [BlocksDisj] at hd

/-- C3 (amended): after every sequence of allocate and release calls
starting from the initial single full-capacity free block, in which
each released region is disjoint from the free list at the time of the
call, the free list is sorted in strictly ascending start order, its
blocks are pairwise non-overlapping, and no two blocks `a`, `b` remain
with `a.start + a.length == b.start`. -/
theorem c3_free_list_sorted_disjoint_coalesced (l : List Block) (h : SafeReach l) :
    l.Pairwise (fun a b : Block => a.1 < b.1) ∧
    l.Pairwise (fun a b : Block => a.1 + a.2 ≤ b.1) ∧
    ∀ a ∈ l, ∀ b ∈ l, a.1 + a.2 ≠ b.1 := by
  obtain ⟨hpw, hpos⟩ := safeReach_freeInv l h
  refine ⟨hpw.imp (fun hab => by omega), hpw.imp (fun hab => by omega), ?_⟩
  have hsym : l.Pairwise (fun a b : Block => a.1 + a.2 ≠ b.1 ∧ b.1 + b.2 ≠ a.1) := by
    refine hpw.imp_of_mem ?_
    intro a b ha hb hab
    have := hpos b hb
    constructor <;> omega
  have hall := hsym.forall (fun a b hab => ⟨hab.2, hab.1⟩)
  intro a ha b hb
  by_cases heq : a = b
  · subst heq
    have := hpos a ha
    omega
  · exact (hall ha hb heq).1

/-- Witness for C3: a concrete safely-reached free list, obtained by
allocating 30 bytes and releasing a disjoint region, satisfies the
three conclusions. -/
theorem c3_free_list_witness :
    SafeReach (releaseFree (allocOpStep [(0, 100)] (.alloc 30)) 10 5) ∧
    (releaseFree (allocOpStep [(0, 100)] (.alloc 30)) 10 5 = [(10, 5), (30, 70)]) ∧
    ([(10, 5), (30, 70)] : List Block).Pairwise (fun a b : Block => a.1 < b.1) ∧
    ([(10, 5), (30, 70)] : List Block).Pairwise (fun a b : Block => a.1 + a.2 ≤ b.1) ∧
    ∀ a ∈ ([(10, 5), (30, 70)] : List Block), ∀ b ∈ ([(10, 5), (30, 70)] : List Block),
      a.1 + a.2 ≠ b.1 := by
  have hs : SafeReach (releaseFree (allocOpStep [(0, 100)] (.alloc 30)) 10 5) := by
    refine SafeReach.release _ 10 5 (SafeReach.alloc _ 30 (SafeReach.init 100 (by omega))) ?_
    decide
  have he : releaseFree (allocOpStep [(0, 100)] (.alloc 30)) 10 5 = [(10, 5), (30, 70)] := by
    decide
  have hc := c3_free_list_sorted_disjoint_coalesced _ hs
  rw [he] at hc
  exact ⟨hs, he, hc.1, hc.2.1, hc.2.2⟩

/-- The best-fit contract of `_allocate_space(size)` claimed by the
spec: failure exactly when no block is large enough; on success the
returned offset is the start of a block of minimal adequate length,
with ties broken by lowest start, and the free list is updated by
removing that block (when its length equals `size`) or shrinking it by
`size` bytes from its front; consequently a block `(start, size)`
present in the free list that is strictly better than every other
adequate block is reallocated at exactly `start`. -/
def BestFitPost (l : List Block) (size : Nat) : Prop :=
  (allocFree l size = none ↔ ∀ p ∈ l, p.2 < size) ∧
  (∀ st l2, allocFree l size = some (st, l2) →
    ∃ i fs, l[i]? = some (st, fs) ∧ size ≤ fs ∧
      (∀ p ∈ l, size ≤ p.2 → fs ≤ p.2) ∧
      (∀ p ∈ l, size ≤ p.2 → p.2 = fs → st ≤ p.1) ∧
      ((fs = size ∧ l2 = l.eraseIdx i) ∨ (fs ≠ size ∧ l2 = l.set i (st + size, fs - size)))) ∧
  (∀ start : Nat, (start, size) ∈ l →
    (∀ p ∈ l, p ≠ (start, size) → size ≤ p.2 → size < p.2 ∨ start < p.1) →
    ∃ l2, allocFree l size = some (start, l2))

/-- C2 counterexample: the claim quantifies over every free list, but
on the unsorted free list `[(10, 5), (0, 5)]` a request of size 5
returns start 10, even though `(0, 5)` also has the minimal adequate
length 5 and a strictly lower start: the tie is broken by scan order,
which coincides with lowest start only on lists sorted by start. -/
theorem c2_best_fit_counterexample :
    allocFree [(10, 5), (0, 5)] 5 = some (10, [(0, 5)]) ∧
    ((0, 5) ∈ ([(10, 5), (0, 5)] : List Block) ∧ 5 ≤ (0, 5).2 ∧
      ∀ p ∈ ([(10, 5), (0, 5)] : List Block), 5 ≤ p.2 → (0, 5).2 ≤ p.2) ∧
    (10 : Nat) ≠ 0 := by decide

/-- C2 (amended): on every free list sorted in ascending start order —
as every free list maintained by the engine is — `_allocate_space`
satisfies the best-fit contract `BestFitPost`. -/
theorem c2_best_fit_allocate (l : List Block) (size : Nat)
    (hsorted : l.Pairwise (fun a b : Block => a.1 ≤ b.1)) :
    BestFitPost l size := by
  have hpart2 : ∀ st l2, allocFree l size = some (st, l2) →
      ∃ i fs, l[i]? = some (st, fs) ∧ size ≤ fs ∧
        (∀ p ∈ l, size ≤ p.2 → fs ≤ p.2) ∧
        (∀ p ∈ l, size ≤ p.2 → p.2 = fs → st ≤ p.1) ∧
        ((fs = size ∧ l2 = l.eraseIdx i) ∨
          (fs ≠ size ∧ l2 = l.set i (st + size, fs - size))) := by
    intro st l2 h
    obtain ⟨i, fs, hget, hsz, hmin, hfirst, hupd⟩ := allocFree_spec l size st l2 h
    refine ⟨i, fs, hget, hsz, hmin, ?_, hupd⟩
    intro p hp hps hpfs
    obtain ⟨j, hj, hgetj⟩ := List.getElem_of_mem hp
    rcases Nat.lt_trichotomy j i with hji | hji | hji
    · have := hfirst j p (by rw [List.getElem?_eq_getElem hj, hgetj]) hji hps
      omega
    · subst hji
      rw [List.getElem?_eq_getElem hj, hgetj] at hget
      injection hget with hget
      rw [hget]
    · obtain ⟨hi, hgi⟩ := List.getElem?_eq_some_iff.mp hget
      have := List.pairwise_iff_getElem.mp hsorted i j hi hj hji
      rw [hgi, hgetj] at this
      exact this
  refine ⟨allocFree_none_iff l size, hpart2, ?_⟩
  intro start hmem hbest
  cases hres : allocFree l size with
  | none =>
    have := (allocFree_none_iff l size).mp hres (start, size) hmem
    simp at this
  | some pr =>
    obtain ⟨st, l2⟩ := pr
    obtain ⟨i, fs, hget, hsz, hmin, htie, _⟩ := hpart2 st l2 hres
    have hfs : fs = size := by
      have h1 := hmin (start, size) hmem (by simp)
      simp at h1
      omega
    have hstle : st ≤ start := htie (start, size) hmem (by simp) (by simp [hfs])
    have hmem2 : (st, fs) ∈ l := List.getElem?_mem hget
    by_cases heq2 : (st, fs) = (start, size)
    · injection heq2 with h1 h2
      exact ⟨l2, by rw [h1]⟩
    · have hb := hbest (st, fs) hmem2 heq2 hsz
      simp at hb
      omega

/-- Witness for C2: the best-fit contract holds on a concrete sorted
free list. -/
theorem c2_best_fit_witness :
    ([(0, 4), (10, 2), (20, 10)] : List Block).Pairwise
      (fun a b : Block => a.1 ≤ b.1) ∧
    BestFitPost [(0, 4), (10, 2), (20, 10)] 2 :=
  ⟨by decide, c2_best_fit_allocate [(0, 4), (10, 2), (20, 10)] 2 (by decide)⟩

/-! ## The full engine state -/

/-- Decidable equality for `Except` results, used to evaluate concrete
runs of the engine. -/
def exceptDecEq {ε α : Type} [DecidableEq ε] [DecidableEq α] : DecidableEq (Except ε α) :=
  fun a b =>
    match a, b with
    | .error e1, .error e2 =>
      if h : e1 = e2 then isTrue (by rw [h]) else isFalse (fun hc => h (by injection hc))
    | .ok x, .ok y =>
      if h : x = y then isTrue (by rw [h]) else isFalse (fun hc => h (by injection hc))
    | .error e1, .ok y => isFalse (fun hc => Except.noConfusion hc)
    | .ok x, .error e2 => isFalse (fun hc => Except.noConfusion hc)

instance {ε α : Type} [DecidableEq ε] [DecidableEq α] : DecidableEq (Except ε α) := exceptDecEq

/-- Error kinds raised by the engine; Python exceptions mapped to the
spec's taxonomy.  `keyError` is an escaping Python `KeyError` from a
missing dictionary key (not part of the spec's taxonomy). -/
inductive FsError where
  | alreadyExists
  | notFound
  | inUse
  | wrongMode
  | invalidArgument
  | outOfSpace
  | notOpen
  | keyError
  deriving Repr, DecidableEq

/-- An entry of `fs_metadata['files']`: logical size and segment start
(`name` is the key; timestamps omitted). -/
structure FileMeta where
  size : Nat
  startPos : Nat
  deriving Repr, DecidableEq

/-- An entry of `fs_metadata['directories']`: contained file names and
child directory names (`name`/timestamp omitted). -/
structure DirMeta where
  files : List String
  subdirectories : List String
  deriving Repr, DecidableEq

/-- An open `FileObject`: bound file name, mode string, cached copy of
the file metadata, and the in-memory content buffer (bytes). -/
structure FileHandle where
  fileName : String
  mode : String
  fileMeta : FileMeta
  content : List Nat
  deriving Repr, DecidableEq

/-- Python dict lookup, `d.get(k)` / `d[k]`, on an insertion-ordered
association list. -/
def alistGet (m : List (String × α)) (k : String) : Option α :=
  match m.find? (fun p => p.1 == k) with
  | none => none
  | some p => some p.2

/-- Python dict assignment `d[k] = v`: update in place when present,
append when new. -/
def alistSet (m : List (String × α)) (k : String) (v : α) : List (String × α) :=
  match m.find? (fun p => p.1 == k) with
  | none => m ++ [(k, v)]
  | some _ => m.map (fun p => if p.1 == k then (k, v) else p)

/-- Python `del d[k]`. -/
def alistErase (m : List (String × α)) (k : String) : List (String × α) :=
  m.filter (fun p => !(p.1 == k))

/-- Python `df.seek(pos); df.write(bs)` on the byte arena. -/
def writeBytes (a : Nat → Nat) (pos : Nat) (bs : List Nat) : Nat → Nat :=
  fun i => if pos ≤ i ∧ i - pos < bs.length then bs.getD (i - pos) 0 else a i

/-- Python `df.seek(pos); df.read(len)` on the byte arena. -/
def readBytes (a : Nat → Nat) (pos len : Nat) : List Nat :=
  (List.range len).map (fun i => a (pos + i))

/-- Python `str.rstrip('\0')` at the byte level: drop trailing zero
bytes. -/
def rstripNul (bs : List Nat) : List Nat :=
  (bs.reverse.dropWhile (fun b => b == 0)).reverse

/-- Python `str.split('/')` on the character list of a path. -/
def splitSlash : List Char → List (List Char)
  | [] => [[]]
  | c :: rest =>
    match splitSlash rest with
    | [] => [[c]]
    | h :: t => if c = '/' then [] :: h :: t else (c :: h) :: t

/-- Python `[p for p in path.split('/') if p]`. -/
def pathParts (s : String) : List (List Char) :=
  (splitSlash s.toList).filter (fun p => !p.isEmpty)

/-- Python `'/' + '/'.join(parts)` (empty for an empty list of parts; the
callers branch on emptiness first). -/
def joinParts (ps : List (List Char)) : String :=
  String.mk (ps.foldl (fun acc p => acc ++ ('/' :: p)) [])

/-- Python `s.startswith('/')`. -/
def startsWithSlash (s : String) : Bool :=
  match s.toList with
  | [] => false
  | c :: _ => c == '/'

/-- Python `s.rstrip('/')`. -/
def rstripSlash (s : String) : String :=
  String.mk ((s.toList.reverse.dropWhile (fun c => c == '/')).reverse)

/-- Python `s.rsplit('/', 1)[0]` for strings containing a slash (the
only way `move` calls it). -/
def rsplitParent (s : String) : String :=
  String.mk (((s.toList.reverse.dropWhile (fun c => !(c == '/'))).drop 1).reverse)

/-- The in-memory state of a `FileSystem` instance: `max_size`,
`fs_metadata` (used size, files, directories, free list), the
current-path cursor, the open-handle table and the backing byte
arena. -/
structure FSState where
  maxSize : Nat
  usedSize : Int
  files : List (String × FileMeta)
  directories : List (String × DirMeta)
  freeSpace : List Block
  currentPath : String
  openFiles : List (String × FileHandle)
  arena : Nat → Nat

/-- The fresh state built by `_initialize` when no metadata snapshot
exists: empty maps, a root directory, one full-capacity free block,
and a zero-filled data file. -/
def initState (cap : Nat) : FSState where
  maxSize := cap
  usedSize := 0
  files := []
  directories := [("/", ⟨[], []⟩)]
  freeSpace := [(0, cap)]
  currentPath := "/"
  openFiles := []
  arena := fun _ => 0

/-- Model of `FileSystem._allocate_space(size)` on the full state; the raising
paths mutate nothing before the raise. -/
def allocateSpace (s : FSState) (size : Nat) : Except FsError (Nat × FSState) :=
  match allocFree s.freeSpace size with
  | none => .error .outOfSpace
  | some (st, f2) => .ok (st, { s with freeSpace := f2, usedSize := s.usedSize + size })

/-- Model of `FileSystem._release_space(start, size)` on the full state. -/
def releaseSpace (s : FSState) (start size : Nat) : FSState :=
  if size = 0 then s
  else { s with freeSpace := releaseFree s.freeSpace start size,
                usedSize := s.usedSize - size }

/-- Model of `get_current_directory_meta` (lines 323-336): materialise the
current path in the directories map when absent. -/
def ensureCurrentDir (s : FSState) : FSState :=
  match alistGet s.directories s.currentPath with
  | some _ => s
  | none => { s with directories := alistSet s.directories s.currentPath ⟨[], []⟩ }

/-- Replace the tracked handle for `name`. -/
def setHandle (s : FSState) (name : String) (h : FileHandle) : FSState :=
  { s with openFiles := alistSet s.openFiles name h }

/-- Python `fs_metadata['files'][name]['size'] = sz`; `none` models the
`KeyError` raised when the name is absent from the map. -/
def setFileSize (s : FSState) (name : String) (sz : Nat) : Option FSState :=
  match alistGet s.files name with
  | none => none
  | some m => some { s with files := alistSet s.files name ⟨sz, m.startPos⟩ }

/-- Python `fs_metadata['files'][name]['modified_time'] = ...`; timestamps are
not modelled but the subscript still raises `KeyError` when the name is
absent. -/
def touchFile (s : FSState) (name : String) : Option FSState :=
  match alistGet s.files name with
  | none => none
  | some _ => some s

/-- Model of `FileSystem.create` (lines 343-372). -/
def stepCreate (s : FSState) (name : String) : Except FsError Unit × FSState :=
  if (alistGet s.files name).isSome then (.error .alreadyExists, s)
  else
    let s1 := ensureCurrentDir s
    match allocateSpace s1 0 with
    | .error e => (.error e, s1)
    | .ok (st, s2) =>
      let s3 :=
        match alistGet s2.directories s2.currentPath with
        | none => s2
        | some d =>
          if d.files.contains name then s2
          else
            let dirs := alistSet s2.directories s2.currentPath ⟨d.files ++ [name], d.subdirectories⟩
            { s2 with directories := dirs }
      (.ok (), { s3 with files := alistSet s3.files name ⟨0, st⟩ })

/-- Model of `FileSystem.delete` (lines 375-402). -/
def stepDelete (s : FSState) (name : String) : Except FsError Unit × FSState :=
  match alistGet s.files name with
  | none => (.error .notFound, s)
  | some meta =>
    if (alistGet s.openFiles name).isSome then (.error .inUse, s)
    else
      let s1 := releaseSpace s meta.startPos meta.size
      let dirs := s1.directories.map
        (fun p : String × DirMeta => (p.1, DirMeta.mk (p.2.files.erase name) p.2.subdirectories))
      let s2 := { s1 with directories := dirs }
      (.ok (), { s2 with files := alistErase s2.files name })

/-- Model of `FileSystem.chdir` (lines 439-477): the only field it ever writes
is the current-path cursor. -/
def stepChdir (s : FSState) (dirName : String) : Except FsError Bool × FSState :=
  if dirName = "." then (.ok true, s)
  else if dirName = ".." then
    if s.currentPath = "/" then (.ok true, s)
    else
      let parts := (pathParts s.currentPath).dropLast
      let p := if parts.isEmpty then "/" else joinParts parts
      (.ok true, { s with currentPath := p })
  else if dirName = "/" then (.ok true, { s with currentPath := "/" })
  else
    let target :=
      if s.currentPath = "/" then "/" ++ dirName else s.currentPath ++ "/" ++ dirName
    if (alistGet s.directories target).isSome then (.ok true, { s with currentPath := target })
    else (.error .notFound, s)

/-- Model of `FileSystem.open` together with `FileObject.__init__` (lines 17-62
and 538-550).  Opening an existing file captures its stored bytes with
trailing NULs stripped; opening a missing name in write mode creates
the file, and its directory-registration step raises `KeyError` when
the computed `dir_path` (empty at the root) is not a directories key —
after the earlier mutations have happened. -/
def stepOpen (s : FSState) (name mode : String) : Except FsError Unit × FSState :=
  if mode ≠ "r" ∧ mode ≠ "w" then (.error .invalidArgument, s)
  else
    match alistGet s.files name with
    | some meta =>
      let h : FileHandle := ⟨name, mode, meta, rstripNul (readBytes s.arena meta.startPos meta.size)⟩
      (.ok (), setHandle s name h)
    | none =>
      if mode ≠ "w" then (.error .notFound, s)
      else
        match allocateSpace s 0 with
        | .error e => (.error e, s)
        | .ok (st, s1) =>
          let s2 := ensureCurrentDir s1
          let s3 :=
            match alistGet s2.directories s2.currentPath with
            | none => s2
            | some d =>
              if d.files.contains name then s2
              else
                let dirs := alistSet s2.directories s2.currentPath ⟨d.files ++ [name], d.subdirectories⟩
                { s2 with directories := dirs }
          let parts := pathParts s3.currentPath
          let dirPath := if parts.isEmpty then "" else joinParts parts
          match alistGet s3.directories dirPath with
          | none => (.error .keyError, s3)
          | some d2 =>
            let dirs2 := alistSet s3.directories dirPath ⟨d2.files ++ [name], d2.subdirectories⟩
            let s4 := { s3 with directories := dirs2 }
            let s5 := { s4 with files := alistSet s4.files name ⟨0, st⟩ }
            (.ok (), setHandle s5 name ⟨name, mode, ⟨0, st⟩, []⟩)

/-- Model of `FileSystem.close` (lines 553-564). -/
def stepClose (s : FSState) (name : String) : Except FsError Unit × FSState :=
  if (alistGet s.openFiles name).isSome then
    (.ok (), { s with openFiles := alistErase s.openFiles name })
  else (.error .notOpen, s)

/-- Model of `FileObject.write_to_file` (lines 65-88), invoked on the handle
tracked for `name`: append to the buffer, rewrite the whole buffer at
`start_pos`, update the size to the buffer's byte length. -/
def stepAppend (s : FSState) (name : String) (text : List Nat) :
    Except FsError Unit × FSState :=
  match alistGet s.openFiles name with
  | none => (.error .notOpen, s)
  | some h =>
    if h.mode ≠ "w" then (.error .wrongMode, s)
    else
      let content := h.content ++ text
      let h2 : FileHandle := ⟨h.fileName, h.mode, ⟨content.length, h.fileMeta.startPos⟩, content⟩
      let s1 := setHandle { s with
        arena := writeBytes s.arena h.fileMeta.startPos content } name h2
      match setFileSize s1 name content.length with
      | none => (.error .keyError, s1)
      | some s2 => (.ok (), s2)

/-- Model of `FileObject.write_to_file_at` (lines 91-116), invoked on the handle
tracked for `name`. -/
def stepWriteAt (s : FSState) (name : String) (offset : Int) (text : List Nat) :
    Except FsError Unit × FSState :=
  match alistGet s.openFiles name with
  | none => (.error .notOpen, s)
  | some h =>
    if h.mode ≠ "w" then (.error .wrongMode, s)
    else if offset < 0 then (.error .invalidArgument, s)
    else
      let off := offset.toNat
      let endPos := off + text.length
      if h.fileMeta.size < endPos then
        let h2 : FileHandle := ⟨h.fileName, h.mode, ⟨endPos, h.fileMeta.startPos⟩, h.content⟩
        let s1 := setHandle s name h2
        match setFileSize s1 name endPos with
        | none => (.error .keyError, s1)
        | some s2 =>
          (.ok (), { s2 with arena := writeBytes s2.arena (h.fileMeta.startPos + off) text })
      else
        let s1 := { s with arena := writeBytes s.arena (h.fileMeta.startPos + off) text }
        match touchFile s1 name with
        | none => (.error .keyError, s1)
        | some s2 => (.ok (), s2)

/-- Model of `FileObject.move_within_file` (lines 142-178), invoked on the
handle tracked for `name`: clamp the moved length to the file end,
read the region, possibly extend the size, then write the copy at the
target offset. -/
def stepMoveWithin (s : FSState) (name : String) (start size target : Int) :
    Except FsError Unit × FSState :=
  match alistGet s.openFiles name with
  | none => (.error .notOpen, s)
  | some h =>
    if h.mode ≠ "w" then (.error .wrongMode, s)
    else if start < 0 ∨ size < 0 ∨ target < 0 then (.error .invalidArgument, s)
    else
      let st := start.toNat
      let sz := size.toNat
      let tg := target.toNat
      if h.fileMeta.size ≤ st then (.ok (), s)
      else
        let sz2 := if h.fileMeta.size < st + sz then h.fileMeta.size - st else sz
        let moved := readBytes s.arena (h.fileMeta.startPos + st) sz2
        let newSize := max h.fileMeta.size (tg + sz2)
        if h.fileMeta.size < newSize then
          let h2 : FileHandle := ⟨h.fileName, h.mode, ⟨newSize, h.fileMeta.startPos⟩, h.content⟩
          let s1 := setHandle s name h2
          match setFileSize s1 name newSize with
          | none => (.error .keyError, s1)
          | some s2 =>
            (.ok (), { s2 with arena := writeBytes s2.arena (h.fileMeta.startPos + tg) moved })
        else
          let s1 := { s with arena := writeBytes s.arena (h.fileMeta.startPos + tg) moved }
          match touchFile s1 name with
          | none => (.error .keyError, s1)
          | some s2 => (.ok (), s2)

/-- Model of `FileObject.truncate_file` (lines 181-200), invoked on the handle
tracked for `name`: a pure metadata-size update; the allocated segment
is never shrunk or released. -/
def stepTruncate (s : FSState) (name : String) (maxSize : Int) :
    Except FsError Unit × FSState :=
  match alistGet s.openFiles name with
  | none => (.error .notOpen, s)
  | some h =>
    if h.mode ≠ "w" then (.error .wrongMode, s)
    else if maxSize < 0 then (.error .invalidArgument, s)
    else if h.fileMeta.size ≤ maxSize.toNat then (.ok (), s)
    else
      let h2 : FileHandle := ⟨h.fileName, h.mode, ⟨maxSize.toNat, h.fileMeta.startPos⟩, h.content⟩
      let s1 := setHandle s name h2
      match setFileSize s1 name maxSize.toNat with
      | none => (.error .keyError, s1)
      | some s2 => (.ok (), s2)

/-- Model of `FileObject.read_from_file` (lines 119-121): the buffer captured at
open time. -/
def readAll (h : FileHandle) : List Nat := h.content

/-- The directory-chain creation loop of `FileSystem.move`
(lines 504-521). -/
def createChainLoop : FSState → List (List Char) → String → FSState
  | s, [], _ => s
  | s, part :: rest, curr =>
    let currNew := if curr = "" then String.mk ('/' :: part)
      else curr ++ String.mk ('/' :: part)
    let s1 :=
      if (alistGet s.directories currNew).isSome then s
      else
        let sA := { s with directories := alistSet s.directories currNew ⟨[], []⟩ }
        let parent := if currNew = String.mk ('/' :: part) then "/" else rsplitParent currNew
        match alistGet sA.directories parent with
        | none => sA
        | some pd =>
          if pd.subdirectories.contains (String.mk part) then sA
          else
            let dirs := alistSet sA.directories parent ⟨pd.files, pd.subdirectories ++ [String.mk part]⟩
            { sA with directories := dirs }
    createChainLoop s1 rest currNew

/-- Model of `FileSystem.move` (lines 480-535): resolve the target path, create
missing directories, unlink the file from every directory, then link it
into the target.  When the resolved target path is not a directories
key even after the creation loop (as happens for target `"/"`, whose
`rstrip('/')` is the empty string), the final subscript raises
`KeyError` after the unlinking already happened. -/
def stepMove (s : FSState) (srcName targetDir : String) : Except FsError Bool × FSState :=
  if (alistGet s.files srcName).isNone then (.error .notFound, s)
  else if (alistGet s.openFiles srcName).isSome then (.error .inUse, s)
  else
    let tPath0 := if startsWithSlash targetDir then targetDir
      else if s.currentPath = "/" then "/" ++ targetDir
      else s.currentPath ++ "/" ++ targetDir
    let tPath := rstripSlash tPath0
    let s1 :=
      if (alistGet s.directories tPath).isSome then s
      else createChainLoop s (pathParts tPath) ""
    let dirs := s1.directories.map
      (fun p : String × DirMeta => (p.1, DirMeta.mk (p.2.files.erase srcName) p.2.subdirectories))
    let s2 := { s1 with directories := dirs }
    match alistGet s2.directories tPath with
    | none => (.error .keyError, s2)
    | some d =>
      if d.files.contains srcName then (.ok true, s2)
      else
        let dirs2 := alistSet s2.directories tPath ⟨d.files ++ [srcName], d.subdirectories⟩
        (.ok true, { s2 with directories := dirs2 })

/-- One engine operation of the kind C1 quantifies over (handle
operations address the handle tracked for the name; `notOpen` when
none is). -/
inductive Op where
  | create (name : String)
  | openFile (name mode : String)
  | close (name : String)
  | append (name : String) (text : List Nat)
  | writeAt (name : String) (offset : Int) (text : List Nat)
  | moveWithin (name : String) (start size target : Int)
  | truncate (name : String) (maxSize : Int)
  | delete (name : String)

/-- The state after one operation, whether it raised or not. -/
def step (s : FSState) : Op → FSState
  | .create n => (stepCreate s n).2
  | .openFile n m => (stepOpen s n m).2
  | .close n => (stepClose s n).2
  | .append n t => (stepAppend s n t).2
  | .writeAt n off t => (stepWriteAt s n off t).2
  | .moveWithin n a b c => (stepMoveWithin s n a b c).2
  | .truncate n m => (stepTruncate s n m).2
  | .delete n => (stepDelete s n).2

/-- The state after a sequence of operations. -/
def runOps (s : FSState) : List Op → FSState
  | [] => s
  | op :: rest => runOps (step s op) rest

example : (stepCreate (initState 1024) "a.txt").2.files = [("a.txt", ⟨0, 0⟩)] := by decide
example : (stepCreate (initState 1024) "a.txt").1 = .ok () := by decide
example :
    (runOps (initState 1024) [.create "a.txt", .openFile "a.txt" "w",
      .append "a.txt" [97, 98, 99, 100]]).files = [("a.txt", ⟨4, 0⟩)] := by decide

/-! ## C1: the space-accounting invariant -/

/-- The invariant that `used_size` plus the summed lengths of the free blocks equals the
volume capacity (`max_size`).  `used_size` is an `Int` because the
engine can drive it negative: sizes grow via writes without
allocation, and `delete` then releases the grown size. -/
def UsedFreeInv (s : FSState) : Prop :=
  s.usedSize + (sumLens s.freeSpace : Int) = (s.maxSize : Int)

theorem sumLens_cons (b : Block) (l : List Block) : sumLens (b :: l) = b.2 + sumLens l := by
  simp [sumLens]

theorem sumLens_append (l1 l2 : List Block) :
    sumLens (l1 ++ l2) = sumLens l1 + sumLens l2 := by
  simp [sumLens]

theorem sumLens_perm {l1 l2 : List Block} (h : List.Perm l1 l2) : sumLens l1 = sumLens l2 :=
  List.Perm.sum_eq (h.map Prod.snd)

theorem sumLens_mergeFrom (rest : List Block) : ∀ cur : Block,
    sumLens (mergeFrom cur rest) = cur.2 + sumLens rest := by
  induction rest with
  | nil => intro cur; simp [mergeFrom, sumLens]
  | cons c rs ih =>
    intro cur
    rw [mergeFrom]
    by_cases hm : cur.1 + cur.2 = c.1
    · rw [if_pos hm, ih, sumLens_cons]
      simp
      omega
    · rw [if_neg hm, sumLens_cons, ih, sumLens_cons]

theorem sumLens_mergeAdjacent (l : List Block) : sumLens (mergeAdjacent l) = sumLens l := by
  cases l with
  | nil => rfl
  | cons b rest => rw [mergeAdjacent, sumLens_mergeFrom, sumLens_cons]

theorem sumLens_sortBlocks (l : List Block) : sumLens (sortBlocks l) = sumLens l := by
  unfold sortBlocks
  exact sumLens_perm (List.perm_insertionSort lexLe l)

theorem sumLens_releaseFree (l : List Block) (st sz : Nat) (h : sz ≠ 0) :
    sumLens (releaseFree l st sz) = sumLens l + sz := by
  unfold releaseFree
  rw [if_neg h, sumLens_mergeAdjacent, sumLens_sortBlocks, sumLens_append]
  simp [sumLens]

theorem sumLens_eraseIdx : ∀ (l : List Block) (i st fs : Nat), l[i]? = some (st, fs) →
    sumLens (l.eraseIdx i) + fs = sumLens l := by
  intro l
  induction l with
  | nil => intro i st fs h; simp at h
  | cons a rest ih =>
    intro i st fs h
    match i with
    | 0 =>
      rw [List.getElem?_cons_zero] at h
      injection h with h
      subst h
      rw [List.eraseIdx_cons_zero, sumLens_cons]
      simp
      omega
    | i + 1 =>
      rw [List.getElem?_cons_succ] at h
      rw [List.eraseIdx_cons_succ, sumLens_cons, sumLens_cons]
      have := ih i st fs h
      omega

theorem sumLens_set : ∀ (l : List Block) (i st fs : Nat) (b : Block), l[i]? = some (st, fs) →
    sumLens (l.set i b) + fs = sumLens l + b.2 := by
  intro l
  induction l with
  | nil => intro i st fs b h; simp at h
  | cons a rest ih =>
    intro i st fs b h
    match i with
    | 0 =>
      rw [List.getElem?_cons_zero] at h
      injection h with h
      subst h
      rw [List.set_cons_zero, sumLens_cons, sumLens_cons]
      simp
      omega
    | i + 1 =>
      rw [List.getElem?_cons_succ] at h
      rw [List.set_cons_succ, sumLens_cons, sumLens_cons]
      have := ih i st fs b h
      omega

/-- Ledger identity of a successful allocation: it moves exactly
`size` bytes from the free list to `used_size`. -/
theorem allocFree_sum (l : List Block) (size st : Nat) (l2 : List Block)
    (h : allocFree l size = some (st, l2)) : sumLens l2 + size = sumLens l := by
  obtain ⟨i, fs, hget, hsz, _, _, hcase⟩ := allocFree_spec l size st l2 h
  rcases hcase with ⟨hfs, hl2⟩ | ⟨hfs, hl2⟩
  · subst hl2
    have := sumLens_eraseIdx l i st fs hget
    omega
  · subst hl2
    have := sumLens_set l i st fs (st + size, fs - size) hget
    simp at this
    omega

theorem allocateSpace_frame (s : FSState) (size st : Nat) (s2 : FSState)
    (h : allocateSpace s size = .ok (st, s2)) :
    s2.maxSize = s.maxSize ∧ (UsedFreeInv s → UsedFreeInv s2) := by
  unfold allocateSpace at h
  cases hres : allocFree s.freeSpace size with
  | none => rw [hres] at h; exact absurd h (by simp)
  | some pr =>
    obtain ⟨st2, f2⟩ := pr
    rw [hres] at h
    dsimp only at h
    injection h with h
    injection h with h1 h2
    subst h2
    have hs := allocFree_sum s.freeSpace size st2 f2 hres
    refine ⟨rfl, ?_⟩
    intro hinv
    unfold UsedFreeInv at *
    simp only
    omega

theorem releaseSpace_frame (s : FSState) (st sz : Nat) :
    (releaseSpace s st sz).maxSize = s.maxSize ∧
    (UsedFreeInv s → UsedFreeInv (releaseSpace s st sz)) := by
  unfold releaseSpace
  by_cases hz : sz = 0
  · rw [if_pos hz]
    exact ⟨rfl, fun h => h⟩
  · rw [if_neg hz]
    refine ⟨rfl, ?_⟩
    intro hinv
    unfold UsedFreeInv at *
    simp only
    rw [sumLens_releaseFree s.freeSpace st sz hz]
    push_cast
    omega

theorem ensureCurrentDir_core (s : FSState) :
    (ensureCurrentDir s).maxSize = s.maxSize ∧
    (ensureCurrentDir s).usedSize = s.usedSize ∧
    (ensureCurrentDir s).freeSpace = s.freeSpace := by
  unfold ensureCurrentDir
  split <;> exact ⟨rfl, rfl, rfl⟩

theorem ensureCurrentDir_inv (s : FSState) (h : UsedFreeInv s) :
    UsedFreeInv (ensureCurrentDir s) := by
  obtain ⟨h1, h2, h3⟩ := ensureCurrentDir_core s
  unfold UsedFreeInv at *
  rw [h1, h2, h3]
  exact h

theorem setHandle_inv (s : FSState) (n : String) (hd : FileHandle) (h : UsedFreeInv s) :
    UsedFreeInv (setHandle s n hd) := h

theorem setFileSize_core (s : FSState) (n : String) (sz : Nat) (s2 : FSState)
    (h : setFileSize s n sz = some s2) :
    s2.maxSize = s.maxSize ∧ s2.usedSize = s.usedSize ∧ s2.freeSpace = s.freeSpace ∧
    s2.openFiles = s.openFiles ∧ s2.arena = s.arena ∧ s2.directories = s.directories ∧
    s2.currentPath = s.currentPath := by
  unfold setFileSize at h
  cases hres : alistGet s.files n with
  | none => rw [hres] at h; exact absurd h (by simp)
  | some m =>
    rw [hres] at h
    injection h with h
    subst h
    exact ⟨rfl, rfl, rfl, rfl, rfl, rfl, rfl⟩

theorem setFileSize_inv (s : FSState) (n : String) (sz : Nat) (s2 : FSState)
    (h : setFileSize s n sz = some s2) (hinv : UsedFreeInv s) : UsedFreeInv s2 := by
  obtain ⟨h1, h2, h3, _⟩ := setFileSize_core s n sz s2 h
  unfold UsedFreeInv at *
  rw [h1, h2, h3]
  exact hinv

theorem touchFile_eq (s : FSState) (n : String) (s2 : FSState)
    (h : touchFile s n = some s2) : s2 = s := by
  unfold touchFile at h
  cases hres : alistGet s.files n with
  | none => rw [hres] at h; exact absurd h (by simp)
  | some m =>
    rw [hres] at h
    injection h with h
    exact h.symm

/-- The accounting core preserved by every operation: capacity is
never written and `used_size`/free list only move through
`_allocate_space` and `_release_space`. -/
def CoreOk (s s2 : FSState) : Prop :=
  s2.maxSize = s.maxSize ∧ (UsedFreeInv s → UsedFreeInv s2)

theorem coreOk_refl (s : FSState) : CoreOk s s := ⟨rfl, fun h => h⟩

theorem coreOk_trans {s1 s2 s3 : FSState} (h1 : CoreOk s1 s2) (h2 : CoreOk s2 s3) :
    CoreOk s1 s3 := ⟨h2.1.trans h1.1, fun h => h2.2 (h1.2 h)⟩

theorem coreOk_of_fields {s s2 : FSState} (h1 : s2.maxSize = s.maxSize)
    (h2 : s2.usedSize = s.usedSize) (h3 : s2.freeSpace = s.freeSpace) : CoreOk s s2 := by
  refine ⟨h1, ?_⟩
  intro h
  unfold UsedFreeInv at *
  rw [h1, h2, h3]
  exact h

theorem coreOk_ensureCurrentDir (s : FSState) : CoreOk s (ensureCurrentDir s) := by
  obtain ⟨h1, h2, h3⟩ := ensureCurrentDir_core s
  exact coreOk_of_fields h1 h2 h3

theorem coreOk_setHandle (s : FSState) (n : String) (hd : FileHandle) :
    CoreOk s (setHandle s n hd) := coreOk_refl _

theorem coreOk_setFileSize {s : FSState} {n : String} {sz : Nat} {s2 : FSState}
    (h : setFileSize s n sz = some s2) : CoreOk s s2 := by
  obtain ⟨h1, h2, h3, _⟩ := setFileSize_core s n sz s2 h
  exact coreOk_of_fields h1 h2 h3

theorem coreOk_allocateSpace {s : FSState} {size st : Nat} {s2 : FSState}
    (h : allocateSpace s size = .ok (st, s2)) : CoreOk s s2 := by
  obtain ⟨h1, h2⟩ := allocateSpace_frame s size st s2 h
  exact ⟨h1, h2⟩

theorem coreOk_releaseSpace (s : FSState) (st sz : Nat) :
    CoreOk s (releaseSpace s st sz) := by
  obtain ⟨h1, h2⟩ := releaseSpace_frame s st sz
  exact ⟨h1, h2⟩

theorem stepCreate_core (s : FSState) (name : String) :
    CoreOk s (stepCreate s name).2 := by
  unfold stepCreate
  split
  · exact coreOk_refl s
  · dsimp only
    cases halloc : allocateSpace (ensureCurrentDir s) 0 with
    | error e =>
      dsimp only
      exact coreOk_ensureCurrentDir s
    | ok pr =>
      obtain ⟨st, s2⟩ := pr
      dsimp only
      have hcore : CoreOk s s2 :=
        coreOk_trans (coreOk_ensureCurrentDir s) (coreOk_allocateSpace halloc)
      repeat' split
      all_goals exact coreOk_trans hcore (coreOk_of_fields rfl rfl rfl)

theorem stepDelete_core (s : FSState) (name : String) :
    CoreOk s (stepDelete s name).2 := by
  unfold stepDelete
  split
  · exact coreOk_refl s
  · split
    · exact coreOk_refl s
    · dsimp only
      exact coreOk_trans (coreOk_releaseSpace s _ _) (coreOk_of_fields rfl rfl rfl)

theorem stepChdir_core (s : FSState) (d : String) : CoreOk s (stepChdir s d).2 := by
  unfold stepChdir
  dsimp only
  repeat' split
  all_goals exact coreOk_of_fields rfl rfl rfl

theorem stepOpen_core (s : FSState) (name mode : String) :
    CoreOk s (stepOpen s name mode).2 := by
  unfold stepOpen
  split
  · exact coreOk_refl s
  · split
    · exact coreOk_refl s
    · split
      · exact coreOk_refl s
      · cases halloc : allocateSpace s 0 with
        | error e =>
          dsimp only
          exact coreOk_refl s
        | ok pr =>
          obtain ⟨st, s1⟩ := pr
          dsimp only
          have hcore : CoreOk s (ensureCurrentDir s1) :=
            coreOk_trans (coreOk_allocateSpace halloc) (coreOk_ensureCurrentDir s1)
          repeat' split
          all_goals exact coreOk_trans hcore (coreOk_of_fields rfl rfl rfl)

theorem stepClose_core (s : FSState) (name : String) : CoreOk s (stepClose s name).2 := by
  unfold stepClose
  split
  · exact coreOk_of_fields rfl rfl rfl
  · exact coreOk_refl s

theorem stepAppend_core (s : FSState) (name : String) (text : List Nat) :
    CoreOk s (stepAppend s name text).2 := by
  unfold stepAppend
  dsimp only
  repeat' split
  all_goals first
    | exact coreOk_refl s
    | exact coreOk_of_fields rfl rfl rfl
    | (rename_i heq
       first
         | (refine coreOk_trans ?_ (coreOk_setFileSize heq)
            exact coreOk_of_fields rfl rfl rfl)
         | (refine coreOk_trans (coreOk_trans ?_ (coreOk_setFileSize heq))
              (coreOk_of_fields rfl rfl rfl)
            exact coreOk_of_fields rfl rfl rfl)
         | (have he := touchFile_eq _ _ _ heq
            subst he
            exact coreOk_of_fields rfl rfl rfl))

theorem stepWriteAt_core (s : FSState) (name : String) (offset : Int) (text : List Nat) :
    CoreOk s (stepWriteAt s name offset text).2 := by
  unfold stepWriteAt
  dsimp only
  repeat' split
  all_goals first
    | exact coreOk_refl s
    | exact coreOk_of_fields rfl rfl rfl
    | (rename_i heq
       first
         | (refine coreOk_trans ?_ (coreOk_setFileSize heq)
            exact coreOk_of_fields rfl rfl rfl)
         | (refine coreOk_trans (coreOk_trans ?_ (coreOk_setFileSize heq))
              (coreOk_of_fields rfl rfl rfl)
            exact coreOk_of_fields rfl rfl rfl)
         | (have he := touchFile_eq _ _ _ heq
            subst he
            exact coreOk_of_fields rfl rfl rfl))

theorem stepMoveWithin_core (s : FSState) (name : String) (a b c : Int) :
    CoreOk s (stepMoveWithin s name a b c).2 := by
  unfold stepMoveWithin
  dsimp only
  repeat' split
  all_goals first
    | exact coreOk_refl s
    | exact coreOk_of_fields rfl rfl rfl
    | (rename_i heq
       first
         | (refine coreOk_trans ?_ (coreOk_setFileSize heq)
            exact coreOk_of_fields rfl rfl rfl)
         | (refine coreOk_trans (coreOk_trans ?_ (coreOk_setFileSize heq))
              (coreOk_of_fields rfl rfl rfl)
            exact coreOk_of_fields rfl rfl rfl)
         | (have he := touchFile_eq _ _ _ heq
            subst he
            exact coreOk_of_fields rfl rfl rfl))

theorem stepTruncate_core (s : FSState) (name : String) (m : Int) :
    CoreOk s (stepTruncate s name m).2 := by
  unfold stepTruncate
  dsimp only
  repeat' split
  all_goals first
    | exact coreOk_refl s
    | exact coreOk_of_fields rfl rfl rfl
    | (rename_i heq
       first
         | (refine coreOk_trans ?_ (coreOk_setFileSize heq)
            exact coreOk_of_fields rfl rfl rfl)
         | (refine coreOk_trans (coreOk_trans ?_ (coreOk_setFileSize heq))
              (coreOk_of_fields rfl rfl rfl)
            exact coreOk_of_fields rfl rfl rfl)
         | (have he := touchFile_eq _ _ _ heq
            subst he
            exact coreOk_of_fields rfl rfl rfl))

theorem step_core (s : FSState) (op : Op) : CoreOk s (step s op) := by
  cases op with
  | create n => exact stepCreate_core s n
  | openFile n m => exact stepOpen_core s n m
  | close n => exact stepClose_core s n
  | append n t => exact stepAppend_core s n t
  | writeAt n o t => exact stepWriteAt_core s n o t
  | moveWithin n a b c => exact stepMoveWithin_core s n a b c
  | truncate n m => exact stepTruncate_core s n m
  | delete n => exact stepDelete_core s n

theorem runOps_core : ∀ (ops : List Op) (s : FSState), CoreOk s (runOps s ops) := by
  intro ops
  induction ops with
  | nil => intro s; exact coreOk_refl s
  | cons op rest ih =>
    intro s
    rw [runOps]
    exact coreOk_trans (step_core s op) (ih (step s op))

/-- C1: at every state reachable from the initial state (one
full-capacity free block, `used_size = 0`) by any sequence of `create`,
`open`, `append`, `writeAt`, `moveWithin`, `truncate`, `delete`,
`close`, the `used_size` plus the sum of the lengths of all free-list
blocks equals the volume capacity. -/
theorem c1_used_plus_free_eq_capacity (cap : Nat) (ops : List Op) :
    (runOps (initState cap) ops).usedSize +
      (sumLens (runOps (initState cap) ops).freeSpace : Int) = (cap : Int) := by
  have hinit : UsedFreeInv (initState cap) := by
    unfold UsedFreeInv initState
    simp [sumLens]
  have h := runOps_core ops (initState cap)
  have hinv := h.2 hinit
  have hmax : (runOps (initState cap) ops).maxSize = cap := h.1
  unfold UsedFreeInv at hinv
  rw [hmax] at hinv
  exact hinv

/-! ## Lookup/update lemmas for the dictionary model -/

theorem find?_map_setEntry (k : String) (v : α) :
    ∀ m : List (String × α), (m.find? (fun p => p.1 == k)).isSome = true →
    ((m.map (fun p => if p.1 == k then (k, v) else p)).find? (fun p => p.1 == k)) =
      some (k, v) := by
  intro m
  induction m with
  | nil => simp
  | cons a m ih =>
    intro hsome
    by_cases hk : (a.1 == k) = true
    · rw [List.map_cons, if_pos hk]
      rw [List.find?_cons_of_pos _ (by simp)]
    · rw [List.map_cons, if_neg hk]
      have hkf : (a.1 == k) = false := by simpa using hk
      simp only [List.find?_cons, hkf]
      apply ih
      simp only [List.find?_cons, hkf] at hsome
      exact hsome

theorem alistGet_set_eq (m : List (String × α)) (k : String) (v : α) :
    alistGet (alistSet m k v) k = some v := by
  unfold alistGet alistSet
  cases hf : m.find? (fun p => p.1 == k) with
  | none =>
    rw [List.find?_append, hf]
    simp
  | some p =>
    rw [find?_map_setEntry k v m (by rw [hf]; rfl)]

/-! ## C9: chdir frame property -/

/-- C9: every `chdir` call — `'.'`, `'..'`, `'/'`, or a directory name,
whether it succeeds or raises `NotFound` — modifies only the
current-path cursor: the files map, the directories map, the free list
and `used_size` are all unchanged. -/
theorem c9_chdir_only_moves_cursor (s : FSState) (d : String) :
    (stepChdir s d).2.files = s.files ∧
    (stepChdir s d).2.directories = s.directories ∧
    (stepChdir s d).2.freeSpace = s.freeSpace ∧
    (stepChdir s d).2.usedSize = s.usedSize := by
  unfold stepChdir
  dsimp only
  repeat' split
  all_goals exact ⟨rfl, rfl, rfl, rfl⟩

/-! ## C4: failed operations and partial metadata mutation -/

/-- C4 (code bug): on a volume whose root directory contains the file
`"a"`, `move("a", "/")` raises (an escaping `KeyError`: the target is
rstripped to the empty string, which is not a directories key) *after*
removing `"a"` from the root directory's file list — the directories
map visibly changed although the operation failed, contradicting the
spec's all-or-nothing requirement. -/
theorem c4_move_to_root_partial_mutation :
    (stepMove (step (initState 100) (.create "a")) "a" "/").1 = .error .keyError ∧
    alistGet (step (initState 100) (.create "a")).directories "/" = some ⟨["a"], []⟩ ∧
    alistGet (stepMove (step (initState 100) (.create "a")) "a" "/").2.directories "/" =
      some ⟨[], []⟩ := by decide

/-! ## C7: truncate -/

theorem stepTruncate_noop (s : FSState) (name : String) (m : Int) (h : FileHandle)
    (hh : alistGet s.openFiles name = some h) (hm2 : h.mode = "w") (h0 : 0 ≤ m)
    (hsz : h.fileMeta.size ≤ m.toNat) : stepTruncate s name m = (.ok (), s) := by
  unfold stepTruncate
  rw [hh]
  dsimp only
  rw [if_neg (by simp [hm2]), if_neg (by omega), if_pos hsz]

/-- C7: for a write-mode handle, `truncate(maxSize)` is a no-op when
the current size is already `<= maxSize` and otherwise sets the
logical size of the tracked handle and of the file record to
`maxSize`, keeping the record's `start_pos`; in every case the free
list and `used_size` are untouched (the allocated segment is never
released); and truncating a second time with the same `maxSize`
changes nothing more. -/
theorem c7_truncate_logical_size_only (s : FSState) (name : String) (m : Int)
    (h : FileHandle) (hh : alistGet s.openFiles name = some h) (hm : h.mode = "w")
    (h0 : 0 ≤ m) :
    ((stepTruncate s name m).2.freeSpace = s.freeSpace ∧
      (stepTruncate s name m).2.usedSize = s.usedSize) ∧
    (h.fileMeta.size ≤ m.toNat → stepTruncate s name m = (.ok (), s)) ∧
    (m.toNat < h.fileMeta.size → ∀ fm, alistGet s.files name = some fm →
      (stepTruncate s name m).1 = .ok () ∧
      alistGet (stepTruncate s name m).2.files name = some ⟨m.toNat, fm.startPos⟩ ∧
      alistGet (stepTruncate s name m).2.openFiles name =
        some ⟨h.fileName, h.mode, ⟨m.toNat, h.fileMeta.startPos⟩, h.content⟩) ∧
    (stepTruncate (stepTruncate s name m).2 name m).2 = (stepTruncate s name m).2 := by
  have hmode : ¬ (h.mode ≠ "w") := by simp [hm]
  by_cases hsz : h.fileMeta.size ≤ m.toNat
  · have hred := stepTruncate_noop s name m h hh hm h0 hsz
    rw [hred]
    refine ⟨⟨rfl, rfl⟩, fun _ => rfl, fun hlt fm hf => absurd hsz (by omega), ?_⟩
    dsimp only
    rw [hred]
  · push_neg at hsz
    cases hf : alistGet s.files name with
    | some fm =>
      have hred : stepTruncate s name m =
          (.ok (), { s with
            files := alistSet s.files name ⟨m.toNat, fm.startPos⟩,
            openFiles := alistSet s.openFiles name
              ⟨h.fileName, h.mode, ⟨m.toNat, h.fileMeta.startPos⟩, h.content⟩ }) := by
        unfold stepTruncate
        rw [hh]
        dsimp only
        rw [if_neg hmode, if_neg (by omega), if_neg (by omega)]
        unfold setFileSize
        dsimp only [setHandle]
        rw [hf]
      rw [hred]
      refine ⟨⟨rfl, rfl⟩, fun hc => absurd hc (by omega), ?_, ?_⟩
      · intro _ fm2 hf2
        injection hf2 with hf2
        subst hf2
        exact ⟨rfl, alistGet_set_eq s.files name _, alistGet_set_eq s.openFiles name _⟩
      · dsimp only
        rw [stepTruncate_noop _ name m
          ⟨h.fileName, h.mode, ⟨m.toNat, h.fileMeta.startPos⟩, h.content⟩
          (alistGet_set_eq s.openFiles name _) hm h0 (le_refl _)]
    | none =>
      have hred : stepTruncate s name m =
          (.error .keyError, setHandle s name
            ⟨h.fileName, h.mode, ⟨m.toNat, h.fileMeta.startPos⟩, h.content⟩) := by
        unfold stepTruncate
        rw [hh]
        dsimp only
        rw [if_neg hmode, if_neg (by omega), if_neg (by omega)]
        unfold setFileSize
        dsimp only [setHandle]
        rw [hf]
      rw [hred]
      refine ⟨⟨rfl, rfl⟩, fun hc => absurd hc (by omega), ?_, ?_⟩
      · intro _ fm2 hf2
        exact absurd hf2 (by simp)
      · dsimp only
        rw [stepTruncate_noop _ name m
          ⟨h.fileName, h.mode, ⟨m.toNat, h.fileMeta.startPos⟩, h.content⟩
          (alistGet_set_eq s.openFiles name _) hm h0 (le_refl _)]

/-- Witness for C7: a concrete 5-byte file truncated to 3 bytes. -/
theorem c7_truncate_witness :
    (0 : Int) ≤ 3 ∧
    alistGet (runOps (initState 64) [.create "f", .openFile "f" "w",
      .append "f" [1, 2, 3, 4, 5]]).openFiles "f" =
      some ⟨"f", "w", ⟨5, 0⟩, [1, 2, 3, 4, 5]⟩ ∧
    alistGet (stepTruncate (runOps (initState 64) [.create "f", .openFile "f" "w",
      .append "f" [1, 2, 3, 4, 5]]) "f" 3).2.files "f" = some ⟨3, 0⟩ := by
  have hh : alistGet (runOps (initState 64) [.create "f", .openFile "f" "w",
      .append "f" [1, 2, 3, 4, 5]]).openFiles "f" =
      some ⟨"f", "w", ⟨5, 0⟩, [1, 2, 3, 4, 5]⟩ := by decide
  have h := c7_truncate_logical_size_only _ "f" 3 _ hh rfl (by omega)
  refine ⟨by omega, hh, ?_⟩
  exact (h.2.2.1 (by decide) ⟨5, 0⟩ (by decide)).2.1

/-! ## C5: writeAt -/

/-- C5: for a write-mode handle, `writeAt(offset, text)` fails with
`InvalidArgument` when `offset < 0`, mutating nothing; when `offset`
plus the byte length of `text` exceeds the current file size, the
file's recorded size (and the handle's cached size) is set to exactly
that bound; and on a freshly created empty file, `writeAt(10, "xyz")`
leaves the file with size 13. -/
theorem c5_write_at_extends_size (s : FSState) (name : String) (offset : Int)
    (text : List Nat) (h : FileHandle) (hh : alistGet s.openFiles name = some h)
    (hm : h.mode = "w") :
    (offset < 0 → stepWriteAt s name offset text = (.error .invalidArgument, s)) ∧
    (0 ≤ offset → h.fileMeta.size < offset.toNat + text.length →
      ∀ fm, alistGet s.files name = some fm →
        (stepWriteAt s name offset text).1 = .ok () ∧
        alistGet (stepWriteAt s name offset text).2.files name =
          some ⟨offset.toNat + text.length, fm.startPos⟩ ∧
        alistGet (stepWriteAt s name offset text).2.openFiles name =
          some ⟨h.fileName, h.mode, ⟨offset.toNat + text.length, h.fileMeta.startPos⟩,
            h.content⟩) ∧
    alistGet (runOps (initState 1024) [.create "b.txt", .openFile "b.txt" "w",
      .writeAt "b.txt" 10 [120, 121, 122]]).files "b.txt" = some ⟨13, 0⟩ := by
  have hmode : ¬ (h.mode ≠ "w") := by simp [hm]
  refine ⟨?_, ?_, by decide⟩
  · intro hneg
    unfold stepWriteAt
    rw [hh]
    dsimp only
    rw [if_neg hmode, if_pos hneg]
  · intro h0 hext fm hf
    have hred : stepWriteAt s name offset text =
        (.ok (), { s with
          files := alistSet s.files name ⟨offset.toNat + text.length, fm.startPos⟩,
          openFiles := alistSet s.openFiles name
            ⟨h.fileName, h.mode, ⟨offset.toNat + text.length, h.fileMeta.startPos⟩, h.content⟩,
          arena := writeBytes s.arena (h.fileMeta.startPos + offset.toNat) text }) := by
      unfold stepWriteAt
      rw [hh]
      dsimp only
      rw [if_neg hmode, if_neg (by omega), if_pos hext]
      unfold setFileSize
      dsimp only [setHandle]
      rw [hf]
    rw [hred]
    exact ⟨rfl, alistGet_set_eq s.files name _, alistGet_set_eq s.openFiles name _⟩

/-- Witness for C5: `writeAt(10, "xyz")` on a freshly created empty
file. -/
theorem c5_write_at_witness :
    alistGet (runOps (initState 1024) [.create "b.txt", .openFile "b.txt" "w"]).openFiles
      "b.txt" = some ⟨"b.txt", "w", ⟨0, 0⟩, []⟩ ∧
    alistGet (stepWriteAt (runOps (initState 1024) [.create "b.txt", .openFile "b.txt" "w"])
      "b.txt" 10 [120, 121, 122]).2.files "b.txt" = some ⟨13, 0⟩ := by
  have hh : alistGet (runOps (initState 1024)
      [.create "b.txt", .openFile "b.txt" "w"]).openFiles "b.txt" =
      some ⟨"b.txt", "w", ⟨0, 0⟩, []⟩ := by decide
  have h := c5_write_at_extends_size _ "b.txt" 10 [120, 121, 122] _ hh rfl
  refine ⟨hh, ?_⟩
  exact (h.2.1 (by omega) (by decide) ⟨0, 0⟩ (by decide)).2.1

/-! ## C8: a second open replaces the tracked handle -/

/-- C8: for a name that already has a tracked handle, a second
`open(name, mode)` with a valid mode does not fail: a new handle is
constructed (capturing the stored content afresh) and replaces the
tracked one in the open-handle table. -/
theorem c8_reopen_replaces_tracked_handle (s : FSState) (name mode : String)
    (h0 : FileHandle) (fm : FileMeta)
    (hh : alistGet s.openFiles name = some h0)
    (hf : alistGet s.files name = some fm)
    (hm : mode = "r" ∨ mode = "w") :
    (stepOpen s name mode).1 = .ok () ∧
    alistGet (stepOpen s name mode).2.openFiles name =
      some ⟨name, mode, fm, rstripNul (readBytes s.arena fm.startPos fm.size)⟩ := by
  have hvalid : ¬ (mode ≠ "r" ∧ mode ≠ "w") := by
    rcases hm with hm | hm <;> simp [hm]
  unfold stepOpen
  rw [if_neg hvalid, hf]
  dsimp only [setHandle]
  exact ⟨rfl, alistGet_set_eq s.openFiles name _⟩

/-- Witness for C8: reopening an already-open file in read mode. -/
theorem c8_reopen_witness :
    alistGet (runOps (initState 256) [.create "g", .openFile "g" "w",
      .append "g" [1, 2]]).openFiles "g" = some ⟨"g", "w", ⟨2, 0⟩, [1, 2]⟩ ∧
    (stepOpen (runOps (initState 256) [.create "g", .openFile "g" "w",
      .append "g" [1, 2]]) "g" "r").1 = .ok () ∧
    alistGet (stepOpen (runOps (initState 256) [.create "g", .openFile "g" "w",
      .append "g" [1, 2]]) "g" "r").2.openFiles "g" =
      some ⟨"g", "r", ⟨2, 0⟩, rstripNul (readBytes (runOps (initState 256)
        [.create "g", .openFile "g" "w", .append "g" [1, 2]]).arena 0 2)⟩ := by
  have hh : alistGet (runOps (initState 256) [.create "g", .openFile "g" "w",
      .append "g" [1, 2]]).openFiles "g" = some ⟨"g", "w", ⟨2, 0⟩, [1, 2]⟩ := by decide
  have hf : alistGet (runOps (initState 256) [.create "g", .openFile "g" "w",
      .append "g" [1, 2]]).files "g" = some ⟨2, 0⟩ := by decide
  have h := c8_reopen_replaces_tracked_handle _ "g" "r" _ ⟨2, 0⟩ hh hf (Or.inl rfl)
  exact ⟨hh, h.1, h.2⟩

/-! ## C10: open captures NUL-stripped content -/

theorem rstripNul_append_zero (l : List Nat) : rstripNul (l ++ [0]) = rstripNul l := by
  unfold rstripNul
  simp

theorem rstripNul_length_le (l : List Nat) : (rstripNul l).length ≤ l.length := by
  unfold rstripNul
  rw [List.length_reverse]
  have := (List.dropWhile_sublist (l := l.reverse) (fun b : Nat => b == 0)).length_le
  rw [List.length_reverse] at this
  exact this

theorem readBytes_succ (a : Nat → Nat) (p n : Nat) :
    readBytes a p (n + 1) = readBytes a p n ++ [a (p + n)] := by
  unfold readBytes
  rw [List.range_succ]
  simp

theorem readBytes_length (a : Nat → Nat) (p n : Nat) : (readBytes a p n).length = n := by
  unfold readBytes
  simp

theorem rstripNul_trailing_shorter (a : Nat → Nat) (p n : Nat) (hz : a (p + n) = 0) :
    (rstripNul (readBytes a p (n + 1))).length ≤ n := by
  rw [readBytes_succ, hz, rstripNul_append_zero]
  have h1 := rstripNul_length_le (readBytes a p n)
  have h2 := readBytes_length a p n
  omega

/-- C10: opening an existing file captures, as the handle's buffer, the
`size` bytes stored at `start_pos` with all trailing NUL bytes
stripped; hence when the stored content ends in a zero byte, `readAll`
after reopening returns strictly fewer bytes than the recorded file
size. -/
theorem c10_open_strips_trailing_nuls (s : FSState) (name mode : String)
    (fm : FileMeta) (hf : alistGet s.files name = some fm)
    (hm : mode = "r" ∨ mode = "w") (hpos : 0 < fm.size)
    (hz : s.arena (fm.startPos + (fm.size - 1)) = 0) :
    (stepOpen s name mode).1 = .ok () ∧
    alistGet (stepOpen s name mode).2.openFiles name =
      some ⟨name, mode, fm, rstripNul (readBytes s.arena fm.startPos fm.size)⟩ ∧
    ∀ h2 : FileHandle, alistGet (stepOpen s name mode).2.openFiles name = some h2 →
      (readAll h2).length < fm.size := by
  have hvalid : ¬ (mode ≠ "r" ∧ mode ≠ "w") := by
    rcases hm with hm | hm <;> simp [hm]
  have hmain : (stepOpen s name mode).1 = .ok () ∧
      alistGet (stepOpen s name mode).2.openFiles name =
        some ⟨name, mode, fm, rstripNul (readBytes s.arena fm.startPos fm.size)⟩ := by
    unfold stepOpen
    rw [if_neg hvalid, hf]
    dsimp only [setHandle]
    exact ⟨rfl, alistGet_set_eq s.openFiles name _⟩
  refine ⟨hmain.1, hmain.2, ?_⟩
  intro h2 hh2
  rw [hmain.2] at hh2
  injection hh2 with hh2
  subst hh2
  unfold readAll
  dsimp only
  have hsz : fm.size = (fm.size - 1) + 1 := by omega
  rw [hsz]
  have := rstripNul_trailing_shorter s.arena fm.startPos (fm.size - 1) hz
  omega

/-- Witness for C10: a 4-byte file whose stored bytes end in two NULs
reopens with a 2-byte buffer. -/
theorem c10_open_witness :
    alistGet (runOps (initState 256) [.create "h", .openFile "h" "w",
      .writeAt "h" 0 [65, 66], .writeAt "h" 2 [0, 0]]).files "h" =
      some ⟨4, 0⟩ ∧
    (runOps (initState 256) [.create "h", .openFile "h" "w",
      .writeAt "h" 0 [65, 66], .writeAt "h" 2 [0, 0]]).arena (0 + (4 - 1)) = 0 ∧
    ∀ h2 : FileHandle,
      alistGet (stepOpen (runOps (initState 256) [.create "h", .openFile "h" "w",
        .writeAt "h" 0 [65, 66], .writeAt "h" 2 [0, 0]]) "h" "r").2.openFiles
        "h" = some h2 → (readAll h2).length < 4 := by
  have hf : alistGet (runOps (initState 256) [.create "h", .openFile "h" "w",
      .writeAt "h" 0 [65, 66], .writeAt "h" 2 [0, 0]]).files "h" =
      some ⟨4, 0⟩ := by decide
  have hz : (runOps (initState 256) [.create "h", .openFile "h" "w",
      .writeAt "h" 0 [65, 66], .writeAt "h" 2 [0, 0]]).arena (0 + (4 - 1)) =
      0 := by decide
  have h := c10_open_strips_trailing_nuls _ "h" "r" ⟨4, 0⟩ hf (Or.inl rfl) (by decide) hz
  exact ⟨hf, hz, h.2.2⟩

/-! ## C6: moveWithin -/

/-- C6 counterexample: on a 10-byte file, `moveWithin(8, 10, 20)` has
`target + size = 30` exceeding the current size, but the file ends up
with size 22, not 30: the moved length is first clamped to
`fileSize - start = 2` and the file is extended only to
`target + clamped = 22`. -/
theorem c6_move_within_counterexample :
    alistGet (runOps (initState 1024) [.create "d.txt", .openFile "d.txt" "w",
      .append "d.txt" [97, 98, 99, 100, 101, 102, 103, 104, 105, 106]]).files "d.txt" =
      some ⟨10, 0⟩ ∧
    alistGet (stepMoveWithin (runOps (initState 1024) [.create "d.txt",
      .openFile "d.txt" "w",
      .append "d.txt" [97, 98, 99, 100, 101, 102, 103, 104, 105, 106]])
      "d.txt" 8 10 20).2.files "d.txt" = some ⟨22, 0⟩ ∧
    (22 : Nat) ≠ 20 + 10 := by decide

/-- C6 (amended): for a write-mode handle on a file record in sync with
the handle's cached size, `moveWithin(start, size, target)` with
nonnegative arguments is a no-op when `start >= fileSize`; otherwise it
succeeds and the file's recorded size becomes
`max fileSize (target + min size (fileSize - start))` — i.e. the file
is logically extended to `target + size` with `size` first clamped to
`fileSize - start`; in particular Scenario D: `moveWithin(0, 4, 100)`
on a 10-byte file `"abcdefghij"` yields size 104, bytes 100-103 equal
to `"abcd"` and bytes 0-9 unchanged. -/
theorem c6_move_within_extends_clamped (s : FSState) (name : String)
    (start size target : Int) (h : FileHandle) (fm : FileMeta)
    (hh : alistGet s.openFiles name = some h) (hm : h.mode = "w")
    (hf : alistGet s.files name = some fm) (hsync : fm.size = h.fileMeta.size)
    (h0 : 0 ≤ start) (h1 : 0 ≤ size) (h2 : 0 ≤ target) :
    (h.fileMeta.size ≤ start.toNat →
      stepMoveWithin s name start size target = (.ok (), s)) ∧
    (start.toNat < h.fileMeta.size →
      (stepMoveWithin s name start size target).1 = .ok () ∧
      alistGet (stepMoveWithin s name start size target).2.files name =
        some ⟨max h.fileMeta.size
          (target.toNat + min size.toNat (h.fileMeta.size - start.toNat)), fm.startPos⟩) ∧
    (alistGet (stepMoveWithin (runOps (initState 1024) [.create "d.txt",
        .openFile "d.txt" "w",
        .append "d.txt" [97, 98, 99, 100, 101, 102, 103, 104, 105, 106]])
        "d.txt" 0 4 100).2.files "d.txt" = some ⟨104, 0⟩ ∧
      readBytes (stepMoveWithin (runOps (initState 1024) [.create "d.txt",
        .openFile "d.txt" "w",
        .append "d.txt" [97, 98, 99, 100, 101, 102, 103, 104, 105, 106]])
        "d.txt" 0 4 100).2.arena 100 4 = [97, 98, 99, 100] ∧
      readBytes (stepMoveWithin (runOps (initState 1024) [.create "d.txt",
        .openFile "d.txt" "w",
        .append "d.txt" [97, 98, 99, 100, 101, 102, 103, 104, 105, 106]])
        "d.txt" 0 4 100).2.arena 0 10 =
        [97, 98, 99, 100, 101, 102, 103, 104, 105, 106]) := by
  have hmode : ¬ (h.mode ≠ "w") := by simp [hm]
  have hnneg : ¬ (start < 0 ∨ size < 0 ∨ target < 0) := by omega
  refine ⟨?_, ?_, by decide⟩
  · intro hle
    unfold stepMoveWithin
    rw [hh]
    dsimp only
    rw [if_neg hmode, if_neg hnneg, if_pos hle]
  · intro hlt
    have hclamp : (if h.fileMeta.size < start.toNat + size.toNat
        then h.fileMeta.size - start.toNat else size.toNat) =
        min size.toNat (h.fileMeta.size - start.toNat) := by
      split <;> omega
    by_cases hext : h.fileMeta.size <
        target.toNat + min size.toNat (h.fileMeta.size - start.toNat)
    · -- the move extends the file
      have hred : stepMoveWithin s name start size target =
          (.ok (), { s with
            files := alistSet s.files name
              ⟨max h.fileMeta.size
                (target.toNat + min size.toNat (h.fileMeta.size - start.toNat)),
               fm.startPos⟩,
            openFiles := alistSet s.openFiles name
              ⟨h.fileName, h.mode,
               ⟨max h.fileMeta.size
                 (target.toNat + min size.toNat (h.fileMeta.size - start.toNat)),
                h.fileMeta.startPos⟩, h.content⟩,
            arena := writeBytes s.arena (h.fileMeta.startPos + target.toNat)
              (readBytes s.arena (h.fileMeta.startPos + start.toNat)
                (min size.toNat (h.fileMeta.size - start.toNat))) }) := by
        unfold stepMoveWithin
        rw [hh]
        dsimp only
        rw [if_neg hmode, if_neg hnneg, if_neg (by omega), hclamp,
          if_pos (by omega)]
        unfold setFileSize
        dsimp only [setHandle]
        rw [hf]
      rw [hred]
      exact ⟨rfl, alistGet_set_eq s.files name _⟩
    · -- no extension: the size is already large enough
      have hmax : max h.fileMeta.size
          (target.toNat + min size.toNat (h.fileMeta.size - start.toNat)) =
          h.fileMeta.size := by omega
      have hred : stepMoveWithin s name start size target =
          (.ok (), { s with
            arena := writeBytes s.arena (h.fileMeta.startPos + target.toNat)
              (readBytes s.arena (h.fileMeta.startPos + start.toNat)
                (min size.toNat (h.fileMeta.size - start.toNat))) }) := by
        unfold stepMoveWithin
        rw [hh]
        dsimp only
        rw [if_neg hmode, if_neg hnneg, if_neg (by omega), hclamp,
          if_neg (by omega)]
        unfold touchFile
        dsimp only
        rw [hf]
      rw [hred]
      refine ⟨rfl, ?_⟩
      rw [hmax]
      have : (⟨h.fileMeta.size, fm.startPos⟩ : FileMeta) = fm := by
        rw [← hsync]
      rw [this]
      exact hf

/-- Witness for C6: Scenario D's call through the amended theorem. -/
theorem c6_move_within_witness :
    alistGet (runOps (initState 1024) [.create "d.txt", .openFile "d.txt" "w",
      .append "d.txt" [97, 98, 99, 100, 101, 102, 103, 104, 105, 106]]).openFiles "d.txt" =
      some ⟨"d.txt", "w", ⟨10, 0⟩, [97, 98, 99, 100, 101, 102, 103, 104, 105, 106]⟩ ∧
    alistGet (stepMoveWithin (runOps (initState 1024) [.create "d.txt",
      .openFile "d.txt" "w",
      .append "d.txt" [97, 98, 99, 100, 101, 102, 103, 104, 105, 106]])
      "d.txt" 0 4 100).2.files "d.txt" = some ⟨104, 0⟩ := by
  have hh : alistGet (runOps (initState 1024) [.create "d.txt", .openFile "d.txt" "w",
      .append "d.txt" [97, 98, 99, 100, 101, 102, 103, 104, 105, 106]]).openFiles "d.txt" =
      some ⟨"d.txt", "w", ⟨10, 0⟩, [97, 98, 99, 100, 101, 102, 103, 104, 105, 106]⟩ := by
    decide
  have hf : alistGet (runOps (initState 1024) [.create "d.txt", .openFile "d.txt" "w",
      .append "d.txt" [97, 98, 99, 100, 101, 102, 103, 104, 105, 106]]).files "d.txt" =
      some ⟨10, 0⟩ := by decide
  have h := c6_move_within_extends_clamped _ "d.txt" 0 4 100 _ ⟨10, 0⟩ hh rfl hf rfl
    (by omega) (by omega) (by omega)
  exact ⟨hh, (h.2.1 (by decide)).2⟩

end TFS
